import Mathlib

/-
Verification of the PCSA (Probabilistic Counting with Stochastic Averaging)
sketch of the quicksilver library, src/pcsa.rs.  The sketch state and its
operations are embedded shallowly: u32/u64 machine integers become naturals
with explicit truncation modulo 2^32 / 2^64 where overflow matters, the
f64 estimation formulas are idealised as real arithmetic, and the two
failure points of the source (the constructor's range check and the
out-of-bounds vector accesses inside merge) become Option/Except results.
-/

set_option maxHeartbeats 1000000

/-- The bias-correction constant of the source: static phi: f64 = 0.77351f64. -/
noncomputable def phi : ℝ := 0.77351

/-- The small-cardinality correction constant: static kappa: f64 = 1.75f64. -/
noncomputable def kappa : ℝ := 1.75

/-- Fuel-bounded trailing-zero count: tzCap w v models the trailing_zeros
intrinsic of a w-bit unsigned integer, returning the index of the least
significant set bit, and w itself when no bit below w is set (in particular
tzCap w 0 = w, matching trailing_zeros of zero). -/
def tzCap : ℕ → ℕ → ℕ
  | 0, _ => 0
  | fuel + 1, v => if v % 2 = 1 then 0 else tzCap fuel (v / 2) + 1

/-- The PCSA sketch record (pub struct PCSA): bucket count m, index bit
count b, the vector of u32 bucket bitmaps, and the u64 index mask. -/
@[ext]
structure PCSA where
  m : ℕ
  b : ℕ
  buckets : List ℕ
  indexMask : ℕ
deriving DecidableEq

/-- Constructor (pub fn new(b: u32) -> PCSA): the source matches b against
the inclusive range pattern 4..16, sets m = 2^b, allocates m zeroed u32
buckets and the mask (1 << b) - 1, and otherwise fails; the failure branch
is modelled as none. -/
def PCSA.new (b : ℕ) : Option PCSA :=
  if 4 ≤ b ∧ b ≤ 16 then
    some { m := 2 ^ b, b := b, buckets := List.replicate (2 ^ b) 0, indexMask := (1 <<< b) - 1 }
  else
    none

/-- Update (pub fn offer_hashed(&mut self, hash: &u64)):
index = hash & indexMask, then buckets[index] |= 1 << (hash >> b).trailing_zeros().
The u32 shift of 1 by r is modelled as 2^r truncated modulo 2^32; the shift
amount r can reach 64 (hash >> b equal to zero), a case the source language
leaves unspecified for a 32-bit shift, and the truncating model keeps the
bucket a well-defined u32 by contributing no bit there. -/
def PCSA.offer_hashed (p : PCSA) (hash : ℕ) : PCSA :=
  { p with
    buckets :=
      p.buckets.set (hash &&& p.indexMask)
        (p.buckets.getD (hash &&& p.indexMask) 0 |||
          (1 <<< tzCap 64 (hash >>> p.b)) % 2 ^ 32) }

/-- offer_hashed with the out-of-bounds panic of buckets.get_mut(index) made
explicit: none models a bucket index outside the bucket vector. -/
def PCSA.offer_checked (p : PCSA) (hash : ℕ) : Option PCSA :=
  if hash &&& p.indexMask < p.buckets.length then some (p.offer_hashed hash) else none

/-- Offering a whole stream of hashed values, one offer_hashed per element. -/
def PCSA.offers (p : PCSA) (l : List ℕ) : PCSA :=
  l.foldl PCSA.offer_hashed p

/-- The summation loop shared by cardinality and smCardinality: for counter
in 0..m, sum += (!buckets[counter]).trailing_zeros(); the u32 complement is
xor with 2^32 - 1. -/
def PCSA.cardSum (p : PCSA) : ℕ :=
  ((List.range p.m).map
    (fun counter => tzCap 32 ((p.buckets.getD counter 0) ^^^ (2 ^ 32 - 1)))).sum

/-- The real value computed by cardinality() before the final cast:
m / phi * 2f64.powf(sum as f64 / m as f64), f64 idealised as real. -/
noncomputable def PCSA.cardinalityR (p : PCSA) : ℝ :=
  (p.m : ℝ) / phi * (2 : ℝ) ^ ((p.cardSum : ℝ) / (p.m : ℝ))

/-- cardinality() (pub fn cardinality(&self) -> u32), the as-u32 truncation
of the estimate modelled as the floor of the (non-negative) real value. -/
noncomputable def PCSA.cardinality (p : PCSA) : ℕ :=
  ⌊p.cardinalityR⌋₊

/-- The real value computed by smCardinality() before the final cast:
m / phi * 2f64.powf(sum / m) - 2f64.powf(-kappa * sum / m). -/
noncomputable def PCSA.smCardinalityR (p : PCSA) : ℝ :=
  (p.m : ℝ) / phi * (2 : ℝ) ^ ((p.cardSum : ℝ) / (p.m : ℝ)) -
    (2 : ℝ) ^ (-kappa * (p.cardSum : ℝ) / (p.m : ℝ))

/-- smCardinality() (pub fn smCardinality(&self) -> u32), truncated like
cardinality(). -/
noncomputable def PCSA.smCardinality (p : PCSA) : ℕ :=
  ⌊p.smCardinalityR⌋₊

/-- The merge loop (pub fn merge(&mut self, p2: &PCSA)): for counter in 0..m,
self.buckets[counter] |= p2.buckets[counter].  The source checks no
compatibility; an out-of-bounds index on either vector fails the task, which
is modelled as Except.error carrying self's buckets at the moment of the
failure (the mutations already performed remain visible, as they do across a
caught failure in the source). -/
def mergeLoop (other : List ℕ) : ℕ → List ℕ → ℕ → Except (List ℕ) (List ℕ)
  | 0, bs, _ => Except.ok bs
  | fuel + 1, bs, counter =>
    if counter < bs.length ∧ counter < other.length then
      mergeLoop other fuel (bs.set counter (bs.getD counter 0 ||| other.getD counter 0))
        (counter + 1)
    else
      Except.error bs

/-- merge, running the loop for m iterations starting at counter 0. -/
def PCSA.merge (p p2 : PCSA) : Except (List ℕ) PCSA :=
  (mergeLoop p2.buckets p.m p.buckets 0).map (fun bs => { p with buckets := bs })

/-- The fully saturated bucket state of precision b: every one of the 2^b
buckets holds the complete u32 bitmap 2^32 - 1. -/
def PCSA.saturated (b : ℕ) : PCSA :=
  { m := 2 ^ b, b := b, buckets := List.replicate (2 ^ b) (2 ^ 32 - 1),
    indexMask := (1 <<< b) - 1 }

/-- Well-formed sketch states: the invariants established by new and
preserved by every operation (bucket vector of length m = 2^b, the low-b-bit
index mask, a precision the constructor accepts, u32-bounded buckets). -/
def PCSA.WF (p : PCSA) : Prop :=
  p.buckets.length = p.m ∧ p.m = 2 ^ p.b ∧ p.indexMask = 2 ^ p.b - 1 ∧
    4 ≤ p.b ∧ p.b ≤ 16 ∧ ∀ x ∈ p.buckets, x < 2 ^ 32

instance (p : PCSA) : Decidable p.WF := by
  unfold PCSA.WF
  infer_instance

/-- Specification-side definition, following the words of the spec rather
than the code: the position of the first unset bit of a bucket bitmap is the
least bit index at which the bitmap has a zero. -/
noncomputable def specFirstUnsetBit (x : ℕ) : ℕ :=
  sInf {k : ℕ | x.testBit k = false}

/-- The 32-bit pattern a single hashed value contributes to its bucket. -/
def bitPat (b : ℕ) (h : ℕ) : ℕ :=
  (1 <<< tzCap 64 (h >>> b)) % 2 ^ 32

/-- The accumulated contribution of a stream to bucket i: the OR of the
patterns of those hashes the index mask routes to bucket i. -/
def contrib (b mask : ℕ) (l : List ℕ) (i : ℕ) : ℕ :=
  l.foldl (fun acc h => if h &&& mask = i then acc ||| bitPat b h else acc) 0

/-- tzCap of zero exhausts its fuel: the trailing-zero count of 0 is the width. -/
theorem tzCap_zero (fuel : ℕ) : tzCap fuel 0 = fuel := by
  induction fuel with
  | zero => rfl
  | succ f ih => simp [tzCap, ih]

/-- When no bit below the fuel is set, tzCap returns the fuel itself. -/
theorem tzCap_eq_fuel : ∀ (fuel v : ℕ), (∀ k < fuel, v.testBit k = false) → tzCap fuel v = fuel := by
  intro fuel
  induction fuel with
  | zero => intro v _; rfl
  | succ f ih =>
    intro v hv
    have h0 : v.testBit 0 = false := hv 0 (Nat.succ_pos f)
    have hv2 : v % 2 ≠ 1 := by simpa [Nat.testBit_zero] using h0
    have hrec : ∀ k < f, (v / 2).testBit k = false := by
      intro k hk
      have := hv (k + 1) (by omega)
      simpa [Nat.testBit_succ] using this
    simp [tzCap, hv2, ih (v / 2) hrec]

/-- tzCap returns the least set-bit index when one exists below the fuel. -/
theorem tzCap_eq_least : ∀ (fuel v j : ℕ), j < fuel → v.testBit j = true →
    (∀ k < j, v.testBit k = false) → tzCap fuel v = j := by
  intro fuel
  induction fuel with
  | zero => intro v j hj; omega
  | succ f ih =>
    intro v j hj hset hmin
    cases j with
    | zero =>
      have h1 : v % 2 = 1 := by simpa [Nat.testBit_zero] using hset
      simp [tzCap, h1]
    | succ j' =>
      have h0 : v.testBit 0 = false := hmin 0 (Nat.succ_pos j')
      have hv2 : v % 2 ≠ 1 := by simpa [Nat.testBit_zero] using h0
      have hset' : (v / 2).testBit j' = true := by
        simpa [Nat.testBit_succ] using hset
      have hmin' : ∀ k < j', (v / 2).testBit k = false := by
        intro k hk
        have := hmin (k + 1) (by omega)
        simpa [Nat.testBit_succ] using this
      simp [tzCap, hv2, ih (v / 2) j' (by omega) hset' hmin']

/-- The code's trailing-zero count of the complemented u32 bucket equals the
spec's first-unset-bit position. -/
theorem tzCap_complement_eq_spec {x : ℕ} (hx : x < 2 ^ 32) :
    tzCap 32 (x ^^^ (2 ^ 32 - 1)) = specFirstUnsetBit x := by
  have h32 : x.testBit 32 = false := Nat.testBit_lt_two_pow hx
  have hne : {k : ℕ | x.testBit k = false}.Nonempty := ⟨32, h32⟩
  have hmem : x.testBit (specFirstUnsetBit x) = false := Nat.sInf_mem hne
  have hle : specFirstUnsetBit x ≤ 32 := Nat.sInf_le h32
  have hmin : ∀ k < specFirstUnsetBit x, x.testBit k = true := by
    intro k hk
    have hnm := Nat.not_mem_of_lt_sInf hk
    simpa [Set.mem_setOf_eq, Bool.not_eq_false] using hnm
  have hc : ∀ k : ℕ, (x ^^^ (2 ^ 32 - 1)).testBit k = (x.testBit k).xor (decide (k < 32)) := by
    intro k
    rw [Nat.testBit_xor, Nat.testBit_two_pow_sub_one]
  rcases Nat.lt_or_ge (specFirstUnsetBit x) 32 with hlt | hge
  · refine tzCap_eq_least 32 _ _ hlt ?_ ?_
    · rw [hc, hmem]
      simp [hlt]
    · intro k hk
      have hk32 : k < 32 := by omega
      rw [hc, hmin k hk]
      simp [hk32]
  · have heq : specFirstUnsetBit x = 32 := le_antisymm hle hge
    rw [heq]
    apply tzCap_eq_fuel
    intro k hk
    rw [hc, hmin k (by omega)]
    simp [hk]

/-- getD at an index beyond the list is the default. -/
theorem getD_of_length_le {l : List ℕ} {i : ℕ} (h : l.length ≤ i) : l.getD i 0 = 0 := by
  simp [List.getD_eq_getElem?_getD, List.getElem?_eq_none h]

/-- getD of a set list at the written (in-bounds) index. -/
theorem getD_set_self {l : List ℕ} {i v : ℕ} (h : i < l.length) :
    (l.set i v).getD i 0 = v := by
  simp [List.getD_eq_getElem?_getD, List.getElem?_set_self h]

/-- getD of a set list at any other index. -/
theorem getD_set_ne {l : List ℕ} {i j v : ℕ} (h : i ≠ j) :
    (l.set i v).getD j 0 = l.getD j 0 := by
  simp [List.getD_eq_getElem?_getD, List.getElem?_set_ne h]

/-- Two lists of naturals agreeing at every getD position and in length agree. -/
theorem list_eq_of_getD {l1 l2 : List ℕ} (hlen : l1.length = l2.length)
    (h : ∀ i, l1.getD i 0 = l2.getD i 0) : l1 = l2 := by
  apply List.ext_getElem hlen
  intro i h1 h2
  have := h i
  rwa [List.getD_eq_getElem?_getD, List.getD_eq_getElem?_getD, List.getElem?_eq_getElem h1,
    List.getElem?_eq_getElem h2] at this

/-- offer_hashed changes no configuration field. -/
theorem offer_fields (p : PCSA) (h : ℕ) :
    (p.offer_hashed h).m = p.m ∧ (p.offer_hashed h).b = p.b ∧
      (p.offer_hashed h).indexMask = p.indexMask ∧
      (p.offer_hashed h).buckets.length = p.buckets.length := by
  refine ⟨rfl, rfl, rfl, ?_⟩
  simp [PCSA.offer_hashed]

/-- The bucket offer_hashed writes, at an in-bounds index. -/
theorem offer_getD_self {p : PCSA} {h : ℕ} (hlen : h &&& p.indexMask < p.buckets.length) :
    (p.offer_hashed h).buckets.getD (h &&& p.indexMask) 0 =
      p.buckets.getD (h &&& p.indexMask) 0 ||| bitPat p.b h := by
  simp only [PCSA.offer_hashed, bitPat]
  exact getD_set_self hlen

/-- Every bucket other than the selected one is untouched by offer_hashed. -/
theorem offer_getD_ne {p : PCSA} {h j : ℕ} (hj : j ≠ h &&& p.indexMask) :
    (p.offer_hashed h).buckets.getD j 0 = p.buckets.getD j 0 := by
  simp only [PCSA.offer_hashed]
  exact getD_set_ne (fun e => hj e.symm)

/-- Two OR-accumulating writes into a list commute. -/
theorem set_or_set_comm (bs : List ℕ) (i1 i2 q1 q2 : ℕ) :
    (bs.set i1 (bs.getD i1 0 ||| q1)).set i2
        ((bs.set i1 (bs.getD i1 0 ||| q1)).getD i2 0 ||| q2) =
      (bs.set i2 (bs.getD i2 0 ||| q2)).set i1
        ((bs.set i2 (bs.getD i2 0 ||| q2)).getD i1 0 ||| q1) := by
  by_cases hii : i1 = i2
  · subst hii
    by_cases hlt : i1 < bs.length
    · rw [getD_set_self hlt, getD_set_self hlt, List.set_set, List.set_set,
        Nat.or_assoc, Nat.or_assoc, Nat.or_comm q1 q2]
    · have hbs1 : bs.set i1 (bs.getD i1 0 ||| q1) = bs := List.set_eq_of_length_le (by omega)
      have hbs2 : bs.set i1 (bs.getD i1 0 ||| q2) = bs := List.set_eq_of_length_le (by omega)
      simp only [hbs1, hbs2]
  · rw [getD_set_ne (fun e => hii e), getD_set_ne (fun e => hii e.symm)]
    exact List.set_comm _ _ _ hii

/-- An OR-accumulating write into a list is idempotent. -/
theorem set_or_set_idem (bs : List ℕ) (i q : ℕ) :
    (bs.set i (bs.getD i 0 ||| q)).set i ((bs.set i (bs.getD i 0 ||| q)).getD i 0 ||| q) =
      bs.set i (bs.getD i 0 ||| q) := by
  by_cases hlt : i < bs.length
  · rw [getD_set_self hlt, List.set_set, Nat.or_assoc, Nat.or_self]
  · have hno : bs.set i (bs.getD i 0 ||| q) = bs := List.set_eq_of_length_le (by omega)
    rw [hno, hno]

/-- Two consecutive updates commute: offer_hashed is pure OR-accumulation. -/
theorem offer_comm (p : PCSA) (h1 h2 : ℕ) :
    (p.offer_hashed h1).offer_hashed h2 = (p.offer_hashed h2).offer_hashed h1 := by
  refine PCSA.ext rfl rfl ?_ rfl
  show ((p.offer_hashed h1).offer_hashed h2).buckets = ((p.offer_hashed h2).offer_hashed h1).buckets
  simp only [PCSA.offer_hashed]
  exact set_or_set_comm p.buckets (h1 &&& p.indexMask) (h2 &&& p.indexMask) _ _

/-- Updating twice with the same hash is the same as updating once. -/
theorem offer_idem (p : PCSA) (h : ℕ) :
    (p.offer_hashed h).offer_hashed h = p.offer_hashed h := by
  refine PCSA.ext rfl rfl ?_ rfl
  show ((p.offer_hashed h).offer_hashed h).buckets = (p.offer_hashed h).buckets
  simp only [PCSA.offer_hashed]
  exact set_or_set_idem p.buckets (h &&& p.indexMask) _

/-- offers on the empty stream is the identity. -/
theorem offers_nil (p : PCSA) : p.offers [] = p := rfl

/-- offers peels off the head of the stream. -/
theorem offers_cons (p : PCSA) (h : ℕ) (t : List ℕ) :
    p.offers (h :: t) = (p.offer_hashed h).offers t := rfl

/-- offers splits across stream concatenation. -/
theorem offers_append (p : PCSA) (l1 l2 : List ℕ) :
    p.offers (l1 ++ l2) = (p.offers l1).offers l2 := by
  simp [PCSA.offers, List.foldl_append]

/-- offers changes no configuration field and keeps the bucket count. -/
theorem offers_fields (l : List ℕ) : ∀ p : PCSA,
    (p.offers l).m = p.m ∧ (p.offers l).b = p.b ∧ (p.offers l).indexMask = p.indexMask ∧
      (p.offers l).buckets.length = p.buckets.length := by
  induction l with
  | nil => intro p; exact ⟨rfl, rfl, rfl, rfl⟩
  | cons h t ih =>
    intro p
    rw [offers_cons]
    rcases ih (p.offer_hashed h) with ⟨h1, h2, h3, h4⟩
    rcases offer_fields p h with ⟨g1, g2, g3, g4⟩
    exact ⟨h1.trans g1, h2.trans g2, h3.trans g3, h4.trans g4⟩

/-- A later single update commutes past a whole earlier stream. -/
theorem offers_offer_comm (h : ℕ) : ∀ (t : List ℕ) (q : PCSA),
    (q.offer_hashed h).offers t = (q.offers t).offer_hashed h := by
  intro t
  induction t with
  | nil => intro q; rfl
  | cons x t ih =>
    intro q
    rw [offers_cons, offers_cons, offer_comm, ih]

/-- Permuting the input stream leaves the final sketch unchanged. -/
theorem offers_perm {l1 l2 : List ℕ} (hp : l1.Perm l2) : ∀ p : PCSA, p.offers l1 = p.offers l2 := by
  induction hp with
  | nil => intro p; rfl
  | cons x _ ih =>
    intro p
    rw [offers_cons, offers_cons, ih]
  | swap x y l =>
    intro p
    rw [offers_cons, offers_cons, offers_cons, offers_cons, offer_comm]
  | trans _ _ ih1 ih2 =>
    intro p
    rw [ih1, ih2]

/-- Re-offering a hash already present in the stream is a no-op. -/
theorem offers_reoffer {l : List ℕ} {h : ℕ} (hm : h ∈ l) (p : PCSA) :
    (p.offers l).offer_hashed h = p.offers l := by
  have hperm : l.Perm (h :: l.erase h) := List.perm_cons_erase hm
  rw [offers_perm hperm, offers_cons, offers_offer_comm, offer_idem]

/-- Duplicate stream elements never matter: offers sees only the set of hashes. -/
theorem offers_dedup : ∀ (l : List ℕ) (p : PCSA), p.offers l = p.offers l.dedup := by
  intro l
  induction l with
  | nil => intro p; rfl
  | cons h t ih =>
    intro p
    by_cases hmem : h ∈ t
    · rw [List.dedup_cons_of_mem hmem, offers_cons, ih, offers_offer_comm,
        offers_reoffer (List.mem_dedup.mpr hmem)]
    · rw [List.dedup_cons_of_not_mem hmem, offers_cons, offers_cons, ih]

/-- Running the contribution fold from any accumulator just ORs the accumulator in. -/
theorem contrib_acc (b mask i : ℕ) : ∀ (l : List ℕ) (acc : ℕ),
    l.foldl (fun acc h => if h &&& mask = i then acc ||| bitPat b h else acc) acc =
      acc ||| contrib b mask l i := by
  intro l
  induction l with
  | nil =>
    intro acc
    simp [contrib]
  | cons x t ih =>
    intro acc
    simp only [contrib, List.foldl_cons]
    rw [ih, ih]
    by_cases hc : x &&& mask = i
    · simp only [if_pos hc, Nat.zero_or]
      rw [Nat.or_assoc]
    · simp only [if_neg hc, Nat.zero_or]

/-- The head hash contributes its pattern exactly when routed to bucket i. -/
theorem contrib_cons (b mask i x : ℕ) (t : List ℕ) :
    contrib b mask (x :: t) i =
      (if x &&& mask = i then bitPat b x else 0) ||| contrib b mask t i := by
  show (x :: t).foldl (fun acc h => if h &&& mask = i then acc ||| bitPat b h else acc) 0 = _
  rw [List.foldl_cons, contrib_acc]
  by_cases hc : x &&& mask = i
  · simp [hc]
  · simp [hc]

/-- Contributions add (by OR) across stream concatenation. -/
theorem contrib_append (b mask i : ℕ) (l1 l2 : List ℕ) :
    contrib b mask (l1 ++ l2) i = contrib b mask l1 i ||| contrib b mask l2 i := by
  show (l1 ++ l2).foldl (fun acc h => if h &&& mask = i then acc ||| bitPat b h else acc) 0 = _
  rw [List.foldl_append]
  exact contrib_acc b mask i l2 (contrib b mask l1 i)

/-- Bucket i of a sketch after a stream is its old value ORed with the
stream's accumulated contribution to that bucket. -/
theorem offers_getD : ∀ (l : List ℕ) (p : PCSA) (i : ℕ), p.indexMask < p.buckets.length →
    (p.offers l).buckets.getD i 0 = p.buckets.getD i 0 ||| contrib p.b p.indexMask l i := by
  intro l
  induction l with
  | nil =>
    intro p i _
    simp [PCSA.offers, contrib]
  | cons x t ih =>
    intro p i hmask
    rw [offers_cons]
    have hmask' : (p.offer_hashed x).indexMask < (p.offer_hashed x).buckets.length := by
      rcases offer_fields p x with ⟨_, _, h3, h4⟩
      rw [h3, h4]
      exact hmask
    rw [ih (p.offer_hashed x) i hmask']
    have hb : (p.offer_hashed x).b = p.b := rfl
    have hmk : (p.offer_hashed x).indexMask = p.indexMask := rfl
    rw [hb, hmk, contrib_cons]
    have hidx : x &&& p.indexMask < p.buckets.length := lt_of_le_of_lt Nat.and_le_right hmask
    by_cases hc : i = x &&& p.indexMask
    · subst hc
      rw [offer_getD_self hidx]
      simp [Nat.or_assoc]
    · rw [offer_getD_ne hc]
      have hc' : ¬(x &&& p.indexMask = i) := fun e => hc e.symm
      simp [hc']

/-- offer_hashed preserves well-formedness: in particular the written bucket
stays a valid u32 bitmap even for trailing-zero counts of 32 and more. -/
theorem WF_offer {p : PCSA} (hp : p.WF) (h : ℕ) : (p.offer_hashed h).WF := by
  obtain ⟨hlen, hm, hmask, hb4, hb16, hbound⟩ := hp
  refine ⟨?_, hm, hmask, hb4, hb16, ?_⟩
  · rw [(offer_fields p h).2.2.2]
    exact hlen
  · intro x hx
    simp only [PCSA.offer_hashed] at hx
    rcases List.mem_or_eq_of_mem_set hx with hmem | hval
    · exact hbound x hmem
    · subst hval
      apply Nat.or_lt_two_pow
      · by_cases hi : h &&& p.indexMask < p.buckets.length
        · have : p.buckets.getD (h &&& p.indexMask) 0 ∈ p.buckets := by
            rw [List.getD_eq_getElem?_getD, List.getElem?_eq_getElem hi]
            exact List.getElem_mem hi
          exact hbound _ this
        · rw [getD_of_length_le (by omega)]
          exact Nat.pos_pow_of_pos 32 (by omega)
      · exact Nat.mod_lt _ (Nat.pos_pow_of_pos 32 (by omega))

/-- Offering any stream preserves well-formedness. -/
theorem WF_offers {p : PCSA} (hp : p.WF) (l : List ℕ) : (p.offers l).WF := by
  induction l generalizing p with
  | nil => exact hp
  | cons x t ih =>
    rw [offers_cons]
    exact ih (WF_offer hp x)

/-- A successfully constructed sketch is well-formed. -/
theorem WF_new {bb : ℕ} {p : PCSA} (h : PCSA.new bb = some p) : p.WF := by
  unfold PCSA.new at h
  by_cases hb : 4 ≤ bb ∧ bb ≤ 16
  · rw [if_pos hb] at h
    cases h
    refine ⟨by simp, rfl, ?_, hb.1, hb.2, ?_⟩
    · show (1 <<< bb) - 1 = 2 ^ bb - 1
      rw [Nat.shiftLeft_eq, Nat.one_mul]
    · intro x hx
      have := List.eq_of_mem_replicate hx
      omega
  · rw [if_neg hb] at h
    cases h

/-- The merge loop with both vectors long enough: it completes, ORing the
other vector into positions counter..counter+fuel-1 and touching nothing else. -/
theorem mergeLoop_ok (other : List ℕ) : ∀ (fuel counter : ℕ) (bs : List ℕ),
    counter + fuel ≤ bs.length → counter + fuel ≤ other.length →
    ∃ bs', mergeLoop other fuel bs counter = Except.ok bs' ∧ bs'.length = bs.length ∧
      (∀ i, i < counter → bs'.getD i 0 = bs.getD i 0) ∧
      (∀ i, counter ≤ i → i < counter + fuel →
        bs'.getD i 0 = bs.getD i 0 ||| other.getD i 0) ∧
      (∀ i, counter + fuel ≤ i → bs'.getD i 0 = bs.getD i 0) := by
  intro fuel
  induction fuel with
  | zero =>
    intro counter bs _ _
    exact ⟨bs, rfl, rfl, fun i _ => rfl, fun i h1 h2 => by omega, fun i _ => rfl⟩
  | succ f ih =>
    intro counter bs hbs hot
    have hcond : counter < bs.length ∧ counter < other.length := by omega
    have hstep : mergeLoop other (f + 1) bs counter =
        mergeLoop other f (bs.set counter (bs.getD counter 0 ||| other.getD counter 0))
          (counter + 1) := by
      rw [mergeLoop, if_pos hcond]
    set bs1 := bs.set counter (bs.getD counter 0 ||| other.getD counter 0) with hbs1
    have hlen1 : bs1.length = bs.length := by simp [hbs1]
    obtain ⟨bs', hrun, hlen, hlow, hmid, hhigh⟩ :=
      ih (counter + 1) bs1 (by omega) (by omega)
    refine ⟨bs', hstep.trans hrun, hlen.trans hlen1, ?_, ?_, ?_⟩
    · intro i hi
      rw [hlow i (by omega), hbs1, getD_set_ne (by omega)]
    · intro i h1 h2
      by_cases hic : i = counter
      · subst hic
        rw [hlow i (by omega), hbs1, getD_set_self hcond.1]
      · rw [hmid i (by omega) (by omega), hbs1, getD_set_ne (by omega)]
    · intro i hi
      rw [hhigh i (by omega), hbs1, getD_set_ne (by omega)]

/-- The merge loop with the other vector too short: it fails at index
other.length, after the prefix 0..other.length-1 has already been ORed in. -/
theorem mergeLoop_err (other : List ℕ) : ∀ (fuel counter : ℕ) (bs : List ℕ),
    counter + fuel ≤ bs.length → other.length < counter + fuel → counter ≤ other.length →
    ∃ bs', mergeLoop other fuel bs counter = Except.error bs' ∧ bs'.length = bs.length ∧
      (∀ i, i < counter → bs'.getD i 0 = bs.getD i 0) ∧
      (∀ i, counter ≤ i → i < other.length →
        bs'.getD i 0 = bs.getD i 0 ||| other.getD i 0) ∧
      (∀ i, other.length ≤ i → bs'.getD i 0 = bs.getD i 0) := by
  intro fuel
  induction fuel with
  | zero =>
    intro counter bs _ hshort hc
    omega
  | succ f ih =>
    intro counter bs hbs hshort hc
    by_cases hstop : counter = other.length
    · have hcond : ¬(counter < bs.length ∧ counter < other.length) := by omega
      have hstep : mergeLoop other (f + 1) bs counter = Except.error bs := by
        rw [mergeLoop, if_neg hcond]
      exact ⟨bs, hstep, rfl, fun i _ => rfl, fun i h1 h2 => by omega, fun i _ => rfl⟩
    · have hcond : counter < bs.length ∧ counter < other.length := by omega
      have hstep : mergeLoop other (f + 1) bs counter =
          mergeLoop other f (bs.set counter (bs.getD counter 0 ||| other.getD counter 0))
            (counter + 1) := by
        rw [mergeLoop, if_pos hcond]
      set bs1 := bs.set counter (bs.getD counter 0 ||| other.getD counter 0) with hbs1
      have hlen1 : bs1.length = bs.length := by simp [hbs1]
      obtain ⟨bs', hrun, hlen, hlow, hmid, hhigh⟩ :=
        ih (counter + 1) bs1 (by omega) (by omega) (by omega)
      refine ⟨bs', hstep.trans hrun, hlen.trans hlen1, ?_, ?_, ?_⟩
      · intro i hi
        rw [hlow i (by omega), hbs1, getD_set_ne (by omega)]
      · intro i h1 h2
        by_cases hic : i = counter
        · subst hic
          rw [hlow i (by omega), hbs1, getD_set_self hcond.1]
        · rw [hmid i (by omega) (by omega), hbs1, getD_set_ne (by omega)]
      · intro i hi
        rw [hhigh i (by omega), hbs1, getD_set_ne (by omega)]

/-- merge when the other sketch has at least as many buckets: it completes
with no error, regardless of any configuration difference, ORing other's
first m buckets into self. -/
theorem merge_ok_char {p p2 : PCSA} (hlen : p.buckets.length = p.m)
    (hge : p.m ≤ p2.buckets.length) :
    ∃ C, p.merge p2 = Except.ok C ∧ C.m = p.m ∧ C.b = p.b ∧
      C.indexMask = p.indexMask ∧ C.buckets.length = p.m ∧
      (∀ i, i < p.m → C.buckets.getD i 0 = p.buckets.getD i 0 ||| p2.buckets.getD i 0) ∧
      (∀ i, p.m ≤ i → C.buckets.getD i 0 = p.buckets.getD i 0) := by
  obtain ⟨bs', hrun, hl, _, hmid, hhigh⟩ :=
    mergeLoop_ok p2.buckets p.m 0 p.buckets (by omega) (by omega)
  refine ⟨{ p with buckets := bs' }, ?_, rfl, rfl, rfl, ?_, ?_, ?_⟩
  · rw [PCSA.merge, hrun]
    rfl
  · rw [hl, hlen]
  · intro i hi
    exact hmid i (Nat.zero_le i) (by omega)
  · intro i hi
    exact hhigh i (by omega)

/-- merge when the other sketch has fewer buckets: it fails with an
out-of-bounds index, but only after other's buckets have all been ORed into
the corresponding prefix of self — the partial mutation is left in place. -/
theorem merge_err_char {p p2 : PCSA} (hlen : p.buckets.length = p.m)
    (hlt : p2.buckets.length < p.m) :
    ∃ bs, p.merge p2 = Except.error bs ∧ bs.length = p.m ∧
      (∀ i, i < p2.buckets.length →
        bs.getD i 0 = p.buckets.getD i 0 ||| p2.buckets.getD i 0) ∧
      (∀ i, p2.buckets.length ≤ i → bs.getD i 0 = p.buckets.getD i 0) := by
  obtain ⟨bs', hrun, hl, _, hmid, hhigh⟩ :=
    mergeLoop_err p2.buckets p.m 0 p.buckets (by omega) (by omega) (by omega)
  refine ⟨bs', ?_, hl.trans hlen, ?_, ?_⟩
  · rw [PCSA.merge, hrun]
    rfl
  · intro i hi
    exact hmid i (Nat.zero_le i) hi
  · intro i hi
    exact hhigh i hi

/-- getD on a replicated list. -/
theorem getD_replicate {n x i : ℕ} : (List.replicate n x).getD i 0 = if i < n then x else 0 := by
  rw [List.getD_eq_getElem?_getD, List.getElem?_replicate]
  by_cases h : i < n
  · simp [h]
  · simp [h]

/-- The first unset bit of the empty bitmap is bit 0, so its summand is 0. -/
theorem tzCap_complement_zero : tzCap 32 (0 ^^^ (2 ^ 32 - 1)) = 0 := by
  rw [Nat.zero_xor]
  refine tzCap_eq_least 32 _ 0 (by omega) ?_ ?_
  · rw [Nat.testBit_two_pow_sub_one]
    simp
  · intro k hk
    omega

/-- A sketch whose buckets all read zero has estimation sum 0. -/
theorem cardSum_allzero {p : PCSA} (hz : ∀ i, p.buckets.getD i 0 = 0) : p.cardSum = 0 := by
  apply List.sum_eq_zero
  intro x hx
  rcases List.mem_map.mp hx with ⟨i, _, rfl⟩
  rw [hz i]
  exact tzCap_complement_zero

/-- A sketch whose first m buckets are saturated has estimation sum 32 * m. -/
theorem cardSum_const32 {p : PCSA} (hs : ∀ i, i < p.m → p.buckets.getD i 0 = 2 ^ 32 - 1) :
    p.cardSum = 32 * p.m := by
  unfold PCSA.cardSum
  have h1 : ∀ i ∈ List.range p.m,
      (fun counter => tzCap 32 ((p.buckets.getD counter 0) ^^^ (2 ^ 32 - 1))) i =
        (fun _ => 32) i := by
    intro i hi
    have := hs i (List.mem_range.mp hi)
    simp only [this, Nat.xor_self]
    exact tzCap_zero 32
  rw [List.map_congr_left h1, List.map_const', List.sum_replicate, List.length_range,
    smul_eq_mul, Nat.mul_comm]

/-- The bias constant is positive. -/
theorem phi_pos : (0 : ℝ) < phi := by
  norm_num [phi]

/-- The bias constant is below one. -/
theorem phi_le_one : phi ≤ 1 := by
  norm_num [phi]

/-- With sum 0 the standard estimate is exactly m / phi. -/
theorem cardinalityR_of_cardSum_zero {p : PCSA} (h : p.cardSum = 0) :
    p.cardinalityR = (p.m : ℝ) / phi := by
  unfold PCSA.cardinalityR
  rw [h]
  norm_num

/-- With sum equal to k * m (m nonzero) the standard estimate is (m / phi) * 2^k. -/
theorem cardinalityR_of_cardSum_mul {p : PCSA} (k : ℕ) (hm : p.m ≠ 0)
    (h : p.cardSum = k * p.m) :
    p.cardinalityR = (p.m : ℝ) / phi * (2 : ℝ) ^ (k : ℕ) := by
  unfold PCSA.cardinalityR
  rw [h]
  have hmR : (p.m : ℝ) ≠ 0 := Nat.cast_ne_zero.mpr hm
  have hexp : ((k * p.m : ℕ) : ℝ) / (p.m : ℝ) = ((k : ℕ) : ℝ) := by
    push_cast
    field_simp
  rw [hexp, Real.rpow_natCast]

/-- With sum equal to 32 * m (m nonzero) the corrected estimate is
(m / phi) * 2^32 - 2^(-56). -/
theorem smCardinalityR_of_cardSum32 {p : PCSA} (hm : p.m ≠ 0) (h : p.cardSum = 32 * p.m) :
    p.smCardinalityR = (p.m : ℝ) / phi * (2 : ℝ) ^ (32 : ℕ) - (2 : ℝ) ^ (-(56 : ℝ)) := by
  unfold PCSA.smCardinalityR
  rw [h]
  have hmR : (p.m : ℝ) ≠ 0 := Nat.cast_ne_zero.mpr hm
  have hexp1 : ((32 * p.m : ℕ) : ℝ) / (p.m : ℝ) = ((32 : ℕ) : ℝ) := by
    push_cast
    field_simp
  have hexp2 : -kappa * ((32 * p.m : ℕ) : ℝ) / (p.m : ℝ) = -(56 : ℝ) := by
    unfold kappa
    push_cast
    field_simp
    ring
  rw [hexp1, hexp2, Real.rpow_natCast]

/-- The corrected estimate is bounded below by m / phi - 1 on every state. -/
theorem smCardinalityR_ge {p : PCSA} : (p.m : ℝ) / phi - 1 ≤ p.smCardinalityR := by
  unfold PCSA.smCardinalityR
  have hmR : (0 : ℝ) ≤ (p.m : ℝ) := Nat.cast_nonneg _
  have hsR : (0 : ℝ) ≤ (p.cardSum : ℝ) := Nat.cast_nonneg _
  have hdivphi : (0 : ℝ) ≤ (p.m : ℝ) / phi := div_nonneg hmR (le_of_lt phi_pos)
  have h1 : (1 : ℝ) ≤ (2 : ℝ) ^ ((p.cardSum : ℝ) / (p.m : ℝ)) :=
    Real.one_le_rpow (by norm_num) (div_nonneg hsR hmR)
  have h2 : (2 : ℝ) ^ (-kappa * (p.cardSum : ℝ) / (p.m : ℝ)) ≤ 1 := by
    apply Real.rpow_le_one_of_one_le_of_nonpos (by norm_num)
    have hk : (0 : ℝ) ≤ kappa := by norm_num [kappa]
    have hrw : -kappa * (p.cardSum : ℝ) / (p.m : ℝ) =
        -(kappa * (p.cardSum : ℝ) / (p.m : ℝ)) := by ring
    rw [hrw]
    exact neg_nonpos.mpr (div_nonneg (mul_nonneg hk hsR) hmR)
  have h3 : (p.m : ℝ) / phi ≤ (p.m : ℝ) / phi * (2 : ℝ) ^ ((p.cardSum : ℝ) / (p.m : ℝ)) :=
    le_mul_of_one_le_right hdivphi h1
  linarith

/-- For a bucket count of at least 16 the quotient m / phi is at least 20. -/
theorem m_div_phi_ge {p : PCSA} (hm16 : 16 ≤ p.m) : (20 : ℝ) ≤ (p.m : ℝ) / phi := by
  have hm : (16 : ℝ) ≤ (p.m : ℝ) := by exact_mod_cast hm16
  rw [le_div_iff₀ phi_pos]
  have h1 : (20 : ℝ) * phi ≤ 16 := by norm_num [phi]
  linarith

/-- Fields of a successfully constructed sketch. -/
theorem new_fields {bb : ℕ} {p : PCSA} (h : PCSA.new bb = some p) :
    p.m = 2 ^ bb ∧ p.b = bb ∧ p.buckets = List.replicate (2 ^ bb) 0 ∧
      p.indexMask = (1 <<< bb) - 1 := by
  unfold PCSA.new at h
  by_cases hb : 4 ≤ bb ∧ bb ≤ 16
  · rw [if_pos hb] at h
    cases h
    exact ⟨rfl, rfl, rfl, rfl⟩
  · rw [if_neg hb] at h
    cases h

/-- A well-formed sketch has at least 16 buckets. -/
theorem WF_m16 {p : PCSA} (hwf : p.WF) : 16 ≤ p.m := by
  rcases hwf with ⟨_, hm, _, hb4, _, _⟩
  rw [hm]
  calc 16 = 2 ^ 4 := by norm_num
  _ ≤ 2 ^ p.b := Nat.pow_le_pow_right (by omega) hb4

/-- In a well-formed sketch the selected bucket index is always in bounds. -/
theorem WF_index_lt {p : PCSA} (hwf : p.WF) (hash : ℕ) :
    hash &&& p.indexMask < p.buckets.length := by
  rcases hwf with ⟨hlen, hm, hmask, _, _, _⟩
  have h1 : hash &&& p.indexMask ≤ p.indexMask := Nat.and_le_right
  have h2 : 0 < 2 ^ p.b := Nat.pos_pow_of_pos _ (by omega)
  rw [hlen, hm]
  omega

/-- Claim C5: construction succeeds exactly for bucketBits in the inclusive
range [4,16], yielding 2^b zeroed 32-bit buckets, bucketCount 2^b and
indexMask (1 << b) - 1; for every other precision it fails and no sketch is
produced. -/
theorem claim_C5 (bb : ℕ) :
    ((4 ≤ bb ∧ bb ≤ 16) → ∃ p, PCSA.new bb = some p ∧ p.m = 2 ^ bb ∧
      p.buckets.length = 2 ^ bb ∧ (∀ x ∈ p.buckets, x = 0) ∧
      p.indexMask = 2 ^ bb - 1 ∧ p.WF) ∧
    (¬(4 ≤ bb ∧ bb ≤ 16) → PCSA.new bb = none) := by
  constructor
  · intro hb
    have hnew : PCSA.new bb =
        some ⟨2 ^ bb, bb, List.replicate (2 ^ bb) 0, (1 <<< bb) - 1⟩ := by
      unfold PCSA.new
      rw [if_pos hb]
    refine ⟨_, hnew, rfl, by simp, ?_, ?_, WF_new hnew⟩
    · intro x hx
      exact List.eq_of_mem_replicate hx
    · show (1 <<< bb) - 1 = 2 ^ bb - 1
      rw [Nat.shiftLeft_eq, Nat.one_mul]
  · intro hb
    unfold PCSA.new
    rw [if_neg hb]

/-- Concrete check of claim C5 at bucketBits 4 (success) and 17 (failure). -/
theorem claim_C5_witness :
    (∃ p, PCSA.new 4 = some p ∧ p.m = 2 ^ 4 ∧ p.buckets.length = 2 ^ 4 ∧
      (∀ x ∈ p.buckets, x = 0) ∧ p.indexMask = 2 ^ 4 - 1 ∧ p.WF) ∧
    PCSA.new 17 = none :=
  ⟨(claim_C5 4).1 (by decide), (claim_C5 17).2 (by decide)⟩

/-- Claim C2: on a well-formed sketch, offer_hashed accepts every 64-bit
hash with no failure path: the bucket index is in bounds (the checked update
succeeds) and the update is well defined, the result again being a
well-formed sketch — also when the trailing-zero count reaches 32 or 64. -/
theorem claim_C2 (p : PCSA) (hash : ℕ) (hwf : p.WF) (hh : hash < 2 ^ 64) :
    p.offer_checked hash = some (p.offer_hashed hash) ∧ (p.offer_hashed hash).WF := by
  constructor
  · unfold PCSA.offer_checked
    rw [if_pos (WF_index_lt hwf hash)]
  · exact WF_offer hwf hash

/-- Concrete check of claim C2 at hash 0, the extreme case in which
hash >> b is zero and the trailing-zero count is 64. -/
theorem claim_C2_witness :
    PCSA.offer_checked ⟨16, 4, List.replicate 16 0, 15⟩ 0 =
        some (PCSA.offer_hashed ⟨16, 4, List.replicate 16 0, 15⟩ 0) ∧
      (PCSA.offer_hashed ⟨16, 4, List.replicate 16 0, 15⟩ 0).WF :=
  claim_C2 ⟨16, 4, List.replicate 16 0, 15⟩ 0 (by decide) (by decide)

/-- Claim C4: offer_hashed sets exactly bit r = trailingZeroCount(hash >> b)
of bucket hash & indexMask by bitwise OR (as a 32-bit write: a bit index of
32 or more is truncated away and contributes nothing), leaves every other
bucket unchanged, and never clears a set bit of any bucket. -/
theorem claim_C4 (p : PCSA) (hash i r : ℕ) (hwf : p.WF) (hh : hash < 2 ^ 64)
    (hi : i = hash &&& p.indexMask) (hr : r = tzCap 64 (hash >>> p.b)) :
    (∀ k, (((p.offer_hashed hash).buckets.getD i 0).testBit k = true) ↔
      ((p.buckets.getD i 0).testBit k = true ∨ (k = r ∧ r < 32))) ∧
    (∀ j, j ≠ i → (p.offer_hashed hash).buckets.getD j 0 = p.buckets.getD j 0) ∧
    (∀ j k, (p.buckets.getD j 0).testBit k = true →
      ((p.offer_hashed hash).buckets.getD j 0).testBit k = true) := by
  subst hi hr
  have hin : hash &&& p.indexMask < p.buckets.length := WF_index_lt hwf hash
  refine ⟨?_, ?_, ?_⟩
  · intro k
    rw [offer_getD_self hin]
    simp only [bitPat, Nat.shiftLeft_eq, Nat.one_mul, Nat.testBit_or,
      Nat.testBit_mod_two_pow, Nat.testBit_two_pow, Bool.or_eq_true, Bool.and_eq_true,
      decide_eq_true_eq]
    constructor
    · rintro (h | ⟨h1, h2⟩)
      · exact Or.inl h
      · exact Or.inr ⟨h2.symm, by omega⟩
    · rintro (h | ⟨h1, h2⟩)
      · exact Or.inl h
      · exact Or.inr ⟨by omega, h1.symm⟩
  · intro j hj
    exact offer_getD_ne hj
  · intro j k hk
    by_cases hj : j = hash &&& p.indexMask
    · subst hj
      rw [offer_getD_self hin, Nat.testBit_or, hk]
      rfl
    · rw [offer_getD_ne hj]
      exact hk

/-- Concrete check of claim C4 at hash 0 on a fresh sketch: the trailing-zero
count is 64, so no bit of bucket 0 changes, and all other buckets are kept. -/
theorem claim_C4_witness :
    (∀ k, (((PCSA.offer_hashed ⟨16, 4, List.replicate 16 0, 15⟩ 0).buckets.getD 0 0).testBit k =
        true) ↔
      (((⟨16, 4, List.replicate 16 0, 15⟩ : PCSA).buckets.getD 0 0).testBit k = true ∨
        (k = 64 ∧ 64 < 32))) ∧
    (∀ j, j ≠ 0 → (PCSA.offer_hashed ⟨16, 4, List.replicate 16 0, 15⟩ 0).buckets.getD j 0 =
      (⟨16, 4, List.replicate 16 0, 15⟩ : PCSA).buckets.getD j 0) ∧
    (∀ j k, ((⟨16, 4, List.replicate 16 0, 15⟩ : PCSA).buckets.getD j 0).testBit k = true →
      ((PCSA.offer_hashed ⟨16, 4, List.replicate 16 0, 15⟩ 0).buckets.getD j 0).testBit k =
        true) :=
  claim_C4 ⟨16, 4, List.replicate 16 0, 15⟩ 0 0 64 (by decide) (by decide) (by decide)
    (by decide)

/-- Claim C8: the final bucket state depends only on the set of distinct
hashes offered: re-offering an already offered hash changes nothing, any
permutation of the stream gives the identical state, and duplicates are
invisible (the stream is interchangeable with its dedup). -/
theorem claim_C8 (p : PCSA) (l l1 l2 : List ℕ) (h : ℕ) :
    (h ∈ l → (p.offers l).offer_hashed h = p.offers l) ∧
    (l1.Perm l2 → p.offers l1 = p.offers l2) ∧
    p.offers l = p.offers l.dedup :=
  ⟨fun hm => offers_reoffer hm p, fun hp => offers_perm hp p, offers_dedup l p⟩

/-- Concrete check of claim C8: re-offering 32, swapping the stream, and
removing a duplicate all leave the sketch unchanged. -/
theorem claim_C8_witness :
    ((PCSA.offers ⟨16, 4, List.replicate 16 0, 15⟩ [32, 7]).offer_hashed 32 =
      PCSA.offers ⟨16, 4, List.replicate 16 0, 15⟩ [32, 7]) ∧
    (PCSA.offers ⟨16, 4, List.replicate 16 0, 15⟩ [32, 7] =
      PCSA.offers ⟨16, 4, List.replicate 16 0, 15⟩ [7, 32]) ∧
    PCSA.offers ⟨16, 4, List.replicate 16 0, 15⟩ [32, 32, 7] =
      PCSA.offers ⟨16, 4, List.replicate 16 0, 15⟩ ([32, 32, 7].dedup) :=
  ⟨(claim_C8 ⟨16, 4, List.replicate 16 0, 15⟩ [32, 7] [] [] 32).1 (by decide),
   (claim_C8 ⟨16, 4, List.replicate 16 0, 15⟩ [] [32, 7] [7, 32] 0).2.1 (by decide),
   (claim_C8 ⟨16, 4, List.replicate 16 0, 15⟩ [32, 32, 7] [] [] 0).2.2⟩

/-- Counterexample to claim C1: a precision-4 sketch merged with a
precision-5 sketch (configurations differ) raises no error at all — the merge
returns normally and self's buckets are mutated, so there is neither an
IncompatibleSketch failure nor all-or-nothing behaviour. -/
theorem claim_C1_counterexample :
    ∃ A B C : PCSA, PCSA.new 4 = some A ∧ PCSA.new 5 = some B ∧
      A.b ≠ (B.offer_hashed 32).b ∧
      A.merge (B.offer_hashed 32) = Except.ok C ∧ C.buckets ≠ A.buckets := by
  refine ⟨_, _, _, rfl, rfl, by decide, rfl, by decide⟩

/-- Claim C1 amended: merge never checks compatibility and never reports an
IncompatibleSketch error.  If the other sketch has at least as many buckets,
the merge completes silently (even with differing bucketBits), ORing other's
corresponding buckets into self; if the other sketch has fewer buckets, the
merge fails on an out-of-bounds index only after ORing other's whole bucket
vector into the matching prefix of self, leaving that partial mutation in
place — not all-or-nothing. -/
theorem claim_C1_amended (p p2 : PCSA) (hlen : p.buckets.length = p.m)
    (hb : p.b ≠ p2.b) :
    (p.m ≤ p2.buckets.length →
      ∃ C, p.merge p2 = Except.ok C ∧ C.m = p.m ∧ C.b = p.b ∧ C.indexMask = p.indexMask ∧
        C.buckets.length = p.m ∧
        (∀ i, i < p.m → C.buckets.getD i 0 = p.buckets.getD i 0 ||| p2.buckets.getD i 0) ∧
        (∀ i, p.m ≤ i → C.buckets.getD i 0 = p.buckets.getD i 0)) ∧
    (p2.buckets.length < p.m →
      ∃ bs, p.merge p2 = Except.error bs ∧ bs.length = p.m ∧
        (∀ i, i < p2.buckets.length →
          bs.getD i 0 = p.buckets.getD i 0 ||| p2.buckets.getD i 0) ∧
        (∀ i, p2.buckets.length ≤ i → bs.getD i 0 = p.buckets.getD i 0)) :=
  ⟨fun hge => merge_ok_char hlen hge, fun hlt => merge_err_char hlen hlt⟩

/-- Concrete check of the amended claim C1: merging a fresh precision-5 other
into a fresh precision-4 self completes without error. -/
theorem claim_C1_witness :
    ∃ C, PCSA.merge ⟨16, 4, List.replicate 16 0, 15⟩ ⟨32, 5, List.replicate 32 0, 31⟩ =
        Except.ok C ∧ C.m = 16 ∧ C.b = 4 ∧ C.indexMask = 15 ∧ C.buckets.length = 16 ∧
      (∀ i, i < 16 → C.buckets.getD i 0 =
        (List.replicate 16 0).getD i 0 ||| (List.replicate 32 0).getD i 0) ∧
      (∀ i, 16 ≤ i → C.buckets.getD i 0 = (List.replicate 16 0).getD i 0) :=
  (claim_C1_amended ⟨16, 4, List.replicate 16 0, 15⟩ ⟨32, 5, List.replicate 32 0, 31⟩
    (by decide) (by decide)).1 (by decide)

/-- Claim C3: for two same-precision sketches built from streams la and lb
over a fresh sketch A0, the merge completes; each merged bucket is the OR of
the two operands' buckets; and the merged sketch is identical to the single
sketch built from the union stream, offered in any order. -/
theorem claim_C3 (bb : ℕ) (A0 : PCSA) (la lb l : List ℕ) (hnew : PCSA.new bb = some A0)
    (hperm : l.Perm (la ++ lb)) :
    ∃ C, (A0.offers la).merge (A0.offers lb) = Except.ok C ∧
      (∀ i, C.buckets.getD i 0 =
        (A0.offers la).buckets.getD i 0 ||| (A0.offers lb).buckets.getD i 0) ∧
      C = A0.offers l := by
  have hwf := WF_new hnew
  obtain ⟨hlen, hm, hmask, hb4, hb16, hbound⟩ := WF_new hnew
  obtain ⟨hAm, hAb, hAmask, hAlen⟩ := offers_fields la A0
  obtain ⟨hBm, hBb, hBmask, hBlen⟩ := offers_fields lb A0
  have hAlen' : (A0.offers la).buckets.length = (A0.offers la).m := by
    rw [hAlen, hlen, hAm]
  have hge : (A0.offers la).m ≤ (A0.offers lb).buckets.length := by
    rw [hBlen, hlen, hAm]
  obtain ⟨C, hmerge, hCm, hCb, hCmask, hClen, hmid, hhigh⟩ := merge_ok_char hAlen' hge
  have hmaskin : A0.indexMask < A0.buckets.length := by
    rw [hmask, hlen, hm]
    have : 0 < 2 ^ A0.b := Nat.pos_pow_of_pos _ (by omega)
    omega
  have hAmaskin : (A0.offers la).indexMask < (A0.offers la).buckets.length := by
    rw [hAmask, hAlen]
    exact hmaskin
  have hz : ∀ i, A0.buckets.getD i 0 = 0 := by
    intro i
    rw [(new_fields hnew).2.2.1, getD_replicate]
    exact ite_self 0
  have hpoint : ∀ i, C.buckets.getD i 0 =
      (A0.offers la).buckets.getD i 0 ||| (A0.offers lb).buckets.getD i 0 := by
    intro i
    by_cases hi : i < (A0.offers la).m
    · exact hmid i hi
    · rw [hhigh i (by omega)]
      have hA0 : (A0.offers la).buckets.getD i 0 = 0 :=
        getD_of_length_le (by rw [hAlen']; omega)
      have hB0 : (A0.offers lb).buckets.getD i 0 = 0 :=
        getD_of_length_le (by rw [hBlen, hlen, ← hAm]; omega)
      rw [hA0, hB0]
      rfl
  refine ⟨C, hmerge, hpoint, ?_⟩
  have hunion : A0.offers l = (A0.offers la).offers lb := by
    rw [offers_perm hperm, offers_append]
  rw [hunion]
  obtain ⟨hUm, hUb, hUmask, hUlen⟩ := offers_fields lb (A0.offers la)
  refine PCSA.ext ?_ ?_ ?_ ?_
  · rw [hCm, hUm]
  · rw [hCb, hUb]
  · apply list_eq_of_getD
    · rw [hClen, hUlen, hAlen']
    · intro i
      rw [hpoint i, offers_getD lb (A0.offers la) i hAmaskin,
        offers_getD lb A0 i hmaskin, hz i, Nat.zero_or, hAb, hAmask]
  · rw [hCmask, hUmask]

/-- Concrete check of claim C3 with streams built over a fresh precision-4
sketch and the union offered in swapped order. -/
theorem claim_C3_witness :
    ∃ C, ((PCSA.offers ⟨16, 4, List.replicate 16 0, 15⟩ [32]).merge
        (PCSA.offers ⟨16, 4, List.replicate 16 0, 15⟩ [7])) = Except.ok C ∧
      (∀ i, C.buckets.getD i 0 =
        (PCSA.offers ⟨16, 4, List.replicate 16 0, 15⟩ [32]).buckets.getD i 0 |||
          (PCSA.offers ⟨16, 4, List.replicate 16 0, 15⟩ [7]).buckets.getD i 0) ∧
      C = PCSA.offers ⟨16, 4, List.replicate 16 0, 15⟩ [7, 32] :=
  claim_C3 4 ⟨16, 4, List.replicate 16 0, 15⟩ [32] [7] [7, 32] (by decide) (by decide)

/-- Claim C6: on every well-formed state, cardinality() is the truncation of
(m / 0.77351) * 2^(sum / m), where sum totals, over all m buckets, the
position of the first unset bit of the bucket (stated spec-side as the least
unset bit index); the function reads the state and returns a number without
modifying anything. -/
theorem claim_C6 (p : PCSA) (hwf : p.WF) :
    p.cardinality =
      ⌊(p.m : ℝ) / phi *
        (2 : ℝ) ^ ((((p.buckets.map specFirstUnsetBit).sum : ℕ) : ℝ) / (p.m : ℝ))⌋₊ := by
  have hsum : p.cardSum = (p.buckets.map specFirstUnsetBit).sum := by
    unfold PCSA.cardSum
    rw [← hwf.1]
    have hlist : (List.range p.buckets.length).map
        (fun counter => tzCap 32 ((p.buckets.getD counter 0) ^^^ (2 ^ 32 - 1))) =
        p.buckets.map (fun x => tzCap 32 (x ^^^ (2 ^ 32 - 1))) := by
      apply List.ext_getElem
      · simp
      · intro i h1 h2
        have hi : i < p.buckets.length := by simpa using h2
        simp only [List.getElem_map, List.getElem_range]
        rw [List.getD_eq_getElem?_getD, List.getElem?_eq_getElem hi]
        rfl
    rw [hlist]
    congr 1
    apply List.map_congr_left
    intro x hx
    exact tzCap_complement_eq_spec (hwf.2.2.2.2.2 x hx)
  unfold PCSA.cardinality PCSA.cardinalityR
  rw [hsum]

/-- Concrete check of claim C6 on a fresh precision-4 sketch. -/
theorem claim_C6_witness :
    PCSA.cardinality ⟨16, 4, List.replicate 16 0, 15⟩ =
      ⌊((16 : ℕ) : ℝ) / phi *
        (2 : ℝ) ^ (((((List.replicate 16 0).map specFirstUnsetBit).sum : ℕ) : ℝ) /
          ((16 : ℕ) : ℝ))⌋₊ :=
  claim_C6 ⟨16, 4, List.replicate 16 0, 15⟩ (by decide)

/-- Counterexample to claim C7: on no well-formed sketch state is the
small-cardinality-corrected estimate negative before truncation — the claimed
configuration and bucket state do not exist, so no wraparound can occur. -/
theorem claim_C7_counterexample : ¬ ∃ p : PCSA, p.WF ∧ p.smCardinalityR < 0 := by
  rintro ⟨p, hwf, hneg⟩
  have h20 := m_div_phi_ge (WF_m16 hwf)
  have h1 := smCardinalityR_ge (p := p)
  linarith

/-- Claim C7 amended: the small-corrected estimate (m / 0.77351) * 2^(sum/m)
- 2^(-1.75 * sum/m) is bounded below by m / 0.77351 - 1, which is strictly
positive for every valid configuration, so the pre-truncation value is never
negative, the truncated result is at least 19, and no wraparound occurs. -/
theorem claim_C7_amended (p : PCSA) (hwf : p.WF) :
    (p.m : ℝ) / phi - 1 ≤ p.smCardinalityR ∧ 0 < (p.m : ℝ) / phi - 1 ∧
      19 ≤ p.smCardinality := by
  have h20 := m_div_phi_ge (WF_m16 hwf)
  have h1 := smCardinalityR_ge (p := p)
  refine ⟨h1, by linarith, ?_⟩
  unfold PCSA.smCardinality
  exact Nat.le_floor (by push_cast; linarith)

/-- Concrete check of the amended claim C7 on a fresh precision-4 sketch. -/
theorem claim_C7_witness :
    ((16 : ℕ) : ℝ) / phi - 1 ≤ PCSA.smCardinalityR ⟨16, 4, List.replicate 16 0, 15⟩ ∧
      0 < ((16 : ℕ) : ℝ) / phi - 1 ∧
      19 ≤ PCSA.smCardinality ⟨16, 4, List.replicate 16 0, 15⟩ :=
  claim_C7_amended ⟨16, 4, List.replicate 16 0, 15⟩ (by decide)

/-- Claim C9: the saturated sketch (every bucket all 32 bits set) is a valid
state whose sum saturates at 32 * m, and both estimators still return a
defined, finite, positive value — the closed forms (m / phi) * 2^32 and
(m / phi) * 2^32 - 2^(-56) truncated — rather than failing. -/
theorem claim_C9 (bb : ℕ) (hb4 : 4 ≤ bb) (hb16 : bb ≤ 16) :
    (PCSA.saturated bb).WF ∧
    (PCSA.saturated bb).cardSum = 32 * 2 ^ bb ∧
    (PCSA.saturated bb).cardinality =
      ⌊((2 ^ bb : ℕ) : ℝ) / phi * (2 : ℝ) ^ (32 : ℕ)⌋₊ ∧
    0 < (PCSA.saturated bb).cardinality ∧
    (PCSA.saturated bb).smCardinality =
      ⌊((2 ^ bb : ℕ) : ℝ) / phi * (2 : ℝ) ^ (32 : ℕ) - (2 : ℝ) ^ (-(56 : ℝ))⌋₊ ∧
    0 < (PCSA.saturated bb).smCardinality := by
  have hwf : (PCSA.saturated bb).WF := by
    refine ⟨by simp [PCSA.saturated], rfl, ?_, hb4, hb16, ?_⟩
    · show (1 <<< bb) - 1 = 2 ^ bb - 1
      rw [Nat.shiftLeft_eq, Nat.one_mul]
    · intro x hx
      have := List.eq_of_mem_replicate hx
      have h32 : 0 < 2 ^ 32 := Nat.pos_pow_of_pos _ (by omega)
      omega
  have hsum : (PCSA.saturated bb).cardSum = 32 * (PCSA.saturated bb).m := by
    apply cardSum_const32
    intro i hi
    show (List.replicate (2 ^ bb) (2 ^ 32 - 1)).getD i 0 = 2 ^ 32 - 1
    rw [getD_replicate]
    exact if_pos hi
  have hm0 : (PCSA.saturated bb).m ≠ 0 := by
    show 2 ^ bb ≠ 0
    exact Nat.pos_iff_ne_zero.mp (Nat.pos_pow_of_pos _ (by omega))
  have h20 := m_div_phi_ge (WF_m16 hwf)
  have hp32 : (1 : ℝ) ≤ (2 : ℝ) ^ (32 : ℕ) := by norm_num
  have hrneg : (2 : ℝ) ^ (-(56 : ℝ)) ≤ 1 :=
    Real.rpow_le_one_of_one_le_of_nonpos (by norm_num) (by norm_num)
  have hcardR : (PCSA.saturated bb).cardinalityR =
      ((PCSA.saturated bb).m : ℝ) / phi * (2 : ℝ) ^ (32 : ℕ) :=
    cardinalityR_of_cardSum_mul 32 hm0 hsum
  have hsmR : (PCSA.saturated bb).smCardinalityR =
      ((PCSA.saturated bb).m : ℝ) / phi * (2 : ℝ) ^ (32 : ℕ) - (2 : ℝ) ^ (-(56 : ℝ)) :=
    smCardinalityR_of_cardSum32 hm0 hsum
  refine ⟨hwf, hsum, ?_, ?_, ?_, ?_⟩
  · unfold PCSA.cardinality
    rw [hcardR]
    rfl
  · unfold PCSA.cardinality
    rw [hcardR, Nat.floor_pos]
    nlinarith
  · unfold PCSA.smCardinality
    rw [hsmR]
    rfl
  · unfold PCSA.smCardinality
    rw [hsmR, Nat.floor_pos]
    nlinarith

/-- Concrete check of claim C9 at precision 4. -/
theorem claim_C9_witness :
    (PCSA.saturated 4).WF ∧
    (PCSA.saturated 4).cardSum = 32 * 2 ^ 4 ∧
    (PCSA.saturated 4).cardinality = ⌊((2 ^ 4 : ℕ) : ℝ) / phi * (2 : ℝ) ^ (32 : ℕ)⌋₊ ∧
    0 < (PCSA.saturated 4).cardinality ∧
    (PCSA.saturated 4).smCardinality =
      ⌊((2 ^ 4 : ℕ) : ℝ) / phi * (2 : ℝ) ^ (32 : ℕ) - (2 : ℝ) ^ (-(56 : ℝ))⌋₊ ∧
    0 < (PCSA.saturated 4).smCardinality :=
  claim_C9 4 (by decide) (by decide)

/-- Claim C10: a freshly constructed sketch with zero updates reports the
truncation of 2^b / 0.77351 — about 1.29 times the bucket count — and in
particular never 0. -/
theorem claim_C10 (bb : ℕ) (p : PCSA) (hnew : PCSA.new bb = some p) :
    p.cardinality = ⌊(2 ^ bb : ℝ) / 0.77351⌋₊ ∧ 0 < p.cardinality := by
  have hwf := WF_new hnew
  obtain ⟨hm, hbfield, hbuckets, hmask⟩ := new_fields hnew
  have hz : ∀ i, p.buckets.getD i 0 = 0 := by
    intro i
    rw [hbuckets, getD_replicate]
    exact ite_self 0
  have hcR : p.cardinalityR = (p.m : ℝ) / phi :=
    cardinalityR_of_cardSum_zero (cardSum_allzero hz)
  have h20 := m_div_phi_ge (WF_m16 hwf)
  constructor
  · unfold PCSA.cardinality
    rw [hcR, hm]
    congr 1
    unfold phi
    push_cast
    ring
  · unfold PCSA.cardinality
    rw [hcR, Nat.floor_pos]
    linarith

/-- Concrete check of claim C10 at precision 4: the empty sketch reports
the truncation of 16 / 0.77351, which is 20, not 0. -/
theorem claim_C10_witness :
    PCSA.cardinality ⟨16, 4, List.replicate 16 0, 15⟩ = ⌊(2 ^ 4 : ℝ) / 0.77351⌋₊ ∧
      0 < PCSA.cardinality ⟨16, 4, List.replicate 16 0, 15⟩ :=
  claim_C10 4 ⟨16, 4, List.replicate 16 0, 15⟩ (by decide)
